import Mathlib

/-!
Verification development for the XBRL taxonomy relationship-hierarchy
construction engine (`dimension_parser.py`, `taxonomy_parser.py`).

The Python sources are embedded shallowly: external taxonomy-engine objects
become plain structures exposing only identity (qualified name), the
abstract flag and a display name; relationship records become `Relationship`;
Python ordered dictionaries become insertion-ordered association lists;
the recursive tree materialization of `build_hierarchy` is embedded with
an explicit fuel argument (the caller supplies fuel strictly larger than
the number of keys of the parent-child map, which the path-visited guard
makes sufficient); the formula-graph walker's recursion is embedded with
fuel tied to its own depth guard so the guard semantics are preserved
exactly.
-/

/-- Qualified name of a taxonomy concept: `localName` models `qname.localName`,
`qstr` models `str(qname)` (the prefixed rendering). -/
structure QName where
  localName : String
  qstr : String
deriving DecidableEq, Repr

/-- External taxonomy-engine object as seen by the core: an optional
qualified name (absent models a missing/invalid `qname` attribute) and the
`isAbstract` flag. -/
structure ExtObj where
  qname : Option QName
  isAbstract : Bool
deriving DecidableEq, Repr

/-- One relationship record: `fromModelObject` / `toModelObject`, each
possibly absent. -/
structure Relationship where
  fromObj : Option ExtObj
  toObj : Option ExtObj
deriving DecidableEq, Repr

/-- First-match lookup in an insertion-ordered association list
(Python `dict` access; keys are unique by construction in all uses). -/
def lookupA {α : Type} : List (String × α) → String → Option α
  | [], _ => none
  | (k, v) :: rest, key => if k = key then some v else lookupA rest key

/-- Membership test for a key (Python `key in dict`). -/
def hasKeyA {α : Type} (l : List (String × α)) (key : String) : Bool :=
  (lookupA l key).isSome

/-- Update the value stored at the first occurrence of a key
(Python `dict[key] = ...` on an existing key: position preserved). -/
def updateA {α : Type} : List (String × α) → String → (α → α) → List (String × α)
  | [], _, _ => []
  | (k, v) :: rest, key, f =>
    if k = key then (k, f v) :: rest else (k, v) :: updateA rest key f

/-- Keys of an association list in insertion order (Python `dict.keys()`). -/
def keysA {α : Type} (l : List (String × α)) : List String :=
  l.map (fun kv => kv.1)

namespace DimensionParser

/-- Split a character list at every occurrence of a separator character,
keeping empty segments — the semantics of Python `str.split` with a
one-character separator (always returns a non-empty list of segments). -/
def splitChar (sep : Char) : List Char → List (List Char)
  | [] => [[]]
  | c :: cs =>
    if c = sep then [] :: splitChar sep cs
    else
      match splitChar sep cs with
      | [] => [[c]]
      | seg :: segs => (c :: seg) :: segs

/-- Last `'/'`-separated segment of a link-role URI
(Python `elr.split('/')[-1]`). -/
def lastSeg (elr : String) : String :=
  String.mk ((splitChar '/' elr.data).getLastD [])

/-- The bracketed role tag prepended to parent names
(Python `role_prefix = f"[{elr.split('/')[-1]}] "`). -/
def rolePrefixStr (elr : String) : String :=
  "[" ++ lastSeg elr ++ "] "

/-- One entry of the transient parent-child map:
`{"abstract": ..., "children": OrderedDict(...), "parent": ...}`.
Only the keys of the children ordered-dict are ever read downstream, so the
children are modelled as their insertion-ordered key list. -/
structure PCMEntry where
  abstract : Bool
  children : List String
  parent : Option String
deriving DecidableEq, Repr

/-- The transient parent-child map built per (arc-role, link-role) scope. -/
abbrev PCM : Type := List (String × PCMEntry)

/-- Add a child key to an ordered children map: an existing key keeps its
position (Python `OrderedDict` assignment), a new key is appended. -/
def addChildName (cs : List String) (c : String) : List String :=
  if c ∈ cs then cs else cs ++ [c]

/-- Valid branch of the `process_relationships` loop body
(dimension_parser lines 27-46): the parent key is the role-prefixed local
name, the child key the bare local name; both entries are created on first
reference (the parent's abstract flag recorded only on creation), the
child's parent pointer is set and the child key is appended to the
parent's ordered children. -/
def pcmInsert (elr : String) (pcm : PCM) (p c : ExtObj) (pq cq : QName) : PCM :=
  let pn := rolePrefixStr elr ++ pq.localName
  let cn := cq.localName
  let pcm1 := if hasKeyA pcm pn then pcm else pcm ++ [(pn, ⟨p.isAbstract, [], none⟩)]
  let pcm2 := if hasKeyA pcm1 cn then pcm1 else pcm1 ++ [(cn, ⟨c.isAbstract, [], none⟩)]
  let pcm3 := updateA pcm2 cn (fun e => { e with parent := some pn })
  updateA pcm3 pn (fun e => { e with children := addChildName e.children cn })

/-- Processing of a single relationship record into the parent-child map
(`process_relationships` loop body, dimension_parser lines 19-46):
records with a missing endpoint or a missing qualified name are skipped
silently; otherwise the map is updated by the valid branch. -/
def pcmStep (elr : String) (pcm : PCM) (r : Relationship) : PCM :=
  match r.fromObj, r.toObj with
  | some p, some c =>
    match p.qname, c.qname with
    | some pq, some cq => pcmInsert elr pcm p c pq cq
    | _, _ => pcm
  | _, _ => pcm

/-- The full parent-child map of one (arc-role, link-role) scope. -/
def buildPCM (elr : String) (rels : List Relationship) : PCM :=
  rels.foldl (pcmStep elr) []

/-- A materialized hierarchy node:
`{"name": ..., "abstract": ..., "children": [...]}`. -/
inductive Node : Type where
  | mk (name : String) (abstract : Bool) (children : List Node) : Node
deriving Repr

/-- Name of a node. -/
def Node.name : Node → String
  | .mk n _ _ => n

/-- Children list of a node. -/
def Node.children : Node → List Node
  | .mk _ _ cs => cs

/-- Recursive tree materialization (`build_hierarchy`, lines 55-80): a node
already on the current descent path is skipped (cycle guard); otherwise its
map entry (defaulting to an empty entry) is materialized and each child key
that is present in the map is built recursively with the node added to the
path, keeping only the successfully built subtrees. The explicit fuel is
supplied by the caller; one unit is consumed per descent level. -/
def build (pcm : PCM) : Nat → String → List String → Option Node
  | 0, _, _ => none
  | fuel + 1, nodeName, visited =>
    if nodeName ∈ visited then none
    else
      let entry := (lookupA pcm nodeName).getD ⟨false, [], none⟩
      let kids := entry.children.filterMap (fun c =>
        if (lookupA pcm c).isSome then build pcm fuel c (nodeName :: visited) else none)
      some (Node.mk nodeName entry.abstract kids)

/-- All children names across the map
(line 84: `{child for children in parent_child_map.values() for child in ...}`). -/
def allChildrenNames (pcm : PCM) : List String :=
  pcm.flatMap (fun kv => kv.2.children)

/-- Root detection (lines 82-89): keys that never occur as a child; when
that difference is empty, fall back to the full key set. -/
def rootNodes (pcm : PCM) : List String :=
  if ((keysA pcm).filter (fun k => !decide (k ∈ allChildrenNames pcm))).isEmpty
  then keysA pcm
  else (keysA pcm).filter (fun k => !decide (k ∈ allChildrenNames pcm))

/-- The scope-level hierarchy (`process_relationships`, lines 93-94): one
tree per detected root, built with fuel exceeding the number of map keys
(sufficient, since the visited path only ever holds distinct map keys). -/
def processRelationships (elr : String) (rels : List Relationship) : List (String × Option Node) :=
  let pcm := buildPCM elr rels
  (rootNodes pcm).map (fun r => (r, build pcm (pcm.length + 1) r []))

end DimensionParser

namespace TaxonomyParser

/-- A child record in the flat hierarchy:
`{"name": child_name, "abstract": child.isAbstract}`. -/
structure TChild where
  name : String
  abstract : Bool
deriving DecidableEq, Repr

/-- A hierarchy entry: `{"abstract": ..., "children": [...]}`. -/
structure TEntry where
  abstract : Bool
  children : List TChild
deriving DecidableEq, Repr

/-- The flat hierarchy built by `taxonomy_parser.process_relationships`:
an insertion-ordered mapping from parent qualified-name string to entry. -/
abbrev THierarchy : Type := List (String × TEntry)

/-- A diagnostic record of a skipped relationship:
`(parent, child, reason)` as appended to `skipped_relationships`. -/
abbrev SkipEntry : Type := Option ExtObj × Option ExtObj × String

/-- Append a child to a parent's children unless a child with the same name
is already present (lines 38-39: `if not any(c["name"] == child_name ...)`). -/
def addTChild (cs : List TChild) (c : TChild) : List TChild :=
  if cs.any (fun x => x.name = c.name) then cs else cs ++ [c]

/-- Valid branch of the `taxonomy_parser.process_relationships` loop body
(lines 31-39): the parent entry is created on first sight under the
rendered qualified name, and the child appended under its rendered
qualified name, deduplicated by name. -/
def txInsert (h : THierarchy) (p c : ExtObj) (pq cq : QName) : THierarchy :=
  let parentName := pq.qstr
  let childName := cq.qstr
  let h1 := if hasKeyA h parentName then h
            else h ++ [(parentName, ⟨p.isAbstract, []⟩)]
  updateA h1 parentName
    (fun e => { e with children := addTChild e.children ⟨childName, c.isAbstract⟩ })

/-- Loop body of `taxonomy_parser.process_relationships` (lines 18-39):
a record with a missing endpoint is skipped with reason
"Parent or child is None"; a record whose endpoint lacks a qualified name
is skipped with reason "Missing QName"; otherwise the hierarchy is updated
by the valid branch. -/
def txStep (acc : THierarchy × List SkipEntry) (r : Relationship) :
    THierarchy × List SkipEntry :=
  match r.fromObj, r.toObj with
  | some p, some c =>
    match p.qname, c.qname with
    | some pq, some cq => (txInsert acc.1 p c pq cq, acc.2)
    | _, _ => (acc.1, acc.2 ++ [(some p, some c, "Missing QName")])
  | _, _ => (acc.1, acc.2 ++ [(r.fromObj, r.toObj, "Parent or child is None")])

/-- The flat builder `taxonomy_parser.process_relationships`: fold the loop
body over the relationship records, returning the hierarchy together with
the skipped-relationship diagnostics. -/
def processRelationships (rels : List Relationship) : THierarchy × List SkipEntry :=
  rels.foldl txStep ([], [])

/-- Validity test matching the two skip guards: both endpoints present and
both carrying a qualified name. -/
def relValid (r : Relationship) : Bool :=
  match r.fromObj, r.toObj with
  | some p, some c => p.qname.isSome && c.qname.isSome
  | _, _ => false

/-- The skip record produced for an invalid relationship, with the reason
chosen by the first failing guard. -/
def skipEntryOf (r : Relationship) : SkipEntry :=
  (r.fromObj, r.toObj,
   if r.fromObj.isNone || r.toObj.isNone then "Parent or child is None"
   else "Missing QName")

/-- Merge of one per-arc-role hierarchy into the unified dimension map
(`parse_taxonomy` lines 171-175): a root name not yet present is inserted
wholesale; a root name already present has its children sequence extended
by appending the new scope's children, with no de-duplication. -/
def mergeIntoUnified (unified : THierarchy) (scope : THierarchy) : THierarchy :=
  scope.foldl
    (fun u pd =>
      if hasKeyA u pd.1 then
        updateA u pd.1 (fun e => { e with children := e.children ++ pd.2.children })
      else u ++ [pd])
    unified

end TaxonomyParser

namespace FormulaWalker

/-- A formula object: `oid` models Python object identity (membership in the
`visited` set), `xlinkLabel` the possibly-absent label, `localName` the
element type name. -/
structure FObj where
  oid : Nat
  xlinkLabel : Option String
  localName : String
deriving DecidableEq, Repr

/-- A formula-arc relationship: source object and possibly-absent target. -/
structure FRel where
  fromObj : FObj
  toObj : Option FObj
deriving DecidableEq, Repr

mutual
/-- A nested formula hierarchy dictionary: insertion-ordered mapping from
object name to entry (the `hierarchy` dict of `process_formula_object`). -/
inductive FDict : Type where
  | mk (entries : List FEntryKV) : FDict
deriving Repr
/-- One named entry of a formula hierarchy:
`{"type": ..., "label": ..., "children": [...]}` keyed by `obj_name`;
each element of `children` is itself a nested dictionary. -/
inductive FEntryKV : Type where
  | mk (name : String) (ftype : String) (flabel : Option String) (children : List FDict) : FEntryKV
deriving Repr
end

/-- Entries of a formula dictionary. -/
def FDict.entries : FDict → List FEntryKV
  | .mk es => es

/-- Key of an entry. -/
def FEntryKV.name : FEntryKV → String
  | .mk n _ _ _ => n

/-- Name under which an object is recorded:
`obj.xlinkLabel or str(obj.localName)` (Python `or`: an absent or empty
label falls back to the local name). -/
def labelOrLocal (o : FObj) : String :=
  match o.xlinkLabel with
  | some s => if s = "" then o.localName else s
  | none => o.localName

/-- Whether a dictionary already has an entry under a name
(Python `obj_name not in hierarchy`). -/
def fHasKey (d : FDict) (key : String) : Bool :=
  d.entries.any (fun e => e.name = key)

/-- Append a fresh entry `{"type": ..., "label": ..., "children": []}`. -/
def fAddEntry (d : FDict) (o : FObj) : FDict :=
  .mk (d.entries ++ [.mk (labelOrLocal o) o.localName o.xlinkLabel []])

/-- Type field of an entry. -/
def FEntryKV.ftype : FEntryKV → String
  | .mk _ t _ _ => t

/-- Label field of an entry. -/
def FEntryKV.flabel : FEntryKV → Option String
  | .mk _ _ l _ => l

/-- Children field of an entry. -/
def FEntryKV.children : FEntryKV → List FDict
  | .mk _ _ _ cs => cs

/-- Extend the children of the entry stored under a key with a list of
nested dictionaries (the per-child `hierarchy[obj_name]["children"].append`). -/
def fExtendChildren (d : FDict) (key : String) (ds : List FDict) : FDict :=
  .mk (d.entries.map (fun e =>
    if e.name = key then .mk e.name e.ftype e.flabel (e.children ++ ds) else e))

/-- The children objects reachable from an object under the current
arc-role: `rel.toModelObject` for each relationship in
`relationship_set.fromModelObject(obj)`, skipping absent targets. -/
def childObjs (rels : List FRel) (o : FObj) : List FObj :=
  (rels.filter (fun r => r.fromObj = o)).filterMap (fun r => r.toObj)

/-- Fuel-indexed embedding of `process_formula_object`
(taxonomy_parser lines 71-107). The Python recursion is bounded by the
`depth > max_depth` guard; the fuel argument decreases once per level and
the caller supplies exactly enough fuel for that guard to fire first, so
the two exhaustion conditions coincide. Guards in source order: depth
exceeded → return the hierarchy unchanged; object on the current path →
return unchanged; otherwise record the entry under
`labelOrLocal obj` on first sight, recursively process every child into a
fresh empty dictionary at `depth + 1` with the object added to the path,
and append the resulting nested dictionaries to the entry's children. -/
def pfoAux (rels : List FRel) (maxDepth : Nat) :
    Nat → FObj → FDict → List FObj → Nat → FDict
  | 0, _, h, _, _ => h
  | gas + 1, obj, h, visited, depth =>
    if depth > maxDepth then h
    else if obj ∈ visited then h
    else
      let objName := labelOrLocal obj
      let h1 := if fHasKey h objName then h else fAddEntry h obj
      let newDicts := (childObjs rels obj).map
        (fun c => pfoAux rels maxDepth gas c (FDict.mk []) (obj :: visited) (depth + 1))
      fExtendChildren h1 objName newDicts

/-- The formula-object walker `process_formula_object` with explicit
relationship list, hierarchy, path and starting depth; the fuel
`maxDepth + 2 - depth` makes the fuel-exhaustion case unreachable before
the depth guard, so the embedding returns exactly what the Python
recursion returns. -/
def processFormulaObject (rels : List FRel) (maxDepth : Nat) (obj : FObj)
    (h : FDict) (visited : List FObj) (depth : Nat) : FDict :=
  pfoAux rels maxDepth (maxDepth + 2 - depth) obj h visited depth

mutual
/-- Nesting depth of a list of formula dictionaries: the greatest number of
named entries on any root-to-leaf chain. -/
def fdepthDicts : List FDict → Nat
  | [] => 0
  | (FDict.mk entries) :: ds => max (fdepthEntries entries) (fdepthDicts ds)
/-- Nesting depth of a list of formula entries. -/
def fdepthEntries : List FEntryKV → Nat
  | [] => 0
  | (FEntryKV.mk _ _ _ cs) :: es => max (1 + fdepthDicts cs) (fdepthEntries es)
end

/-- Nesting depth of one formula hierarchy dictionary. -/
def FDict.depth (d : FDict) : Nat :=
  fdepthDicts [d]

end FormulaWalker

namespace DimensionParser

/-- All names occurring in a forest of materialized nodes, the root names
included. -/
def namesList : List Node → List String
  | [] => []
  | (Node.mk n _ cs) :: rest => n :: (namesList cs ++ namesList rest)

/-- Depth of a forest of materialized nodes: a leaf contributes 1. -/
def depthList : List Node → Nat
  | [] => 0
  | (Node.mk _ _ cs) :: rest => max (1 + depthList cs) (depthList rest)

/-- Acyclicity of a forest of materialized nodes: no node's name occurs
anywhere in that node's own subtree of descendants, recursively. -/
def nodeAcyclic : List Node → Bool
  | [] => true
  | (Node.mk n _ cs) :: rest =>
    (!decide (n ∈ namesList cs)) && nodeAcyclic cs && nodeAcyclic rest

/-- The children recorded under a key of the parent-child map (the empty
list when the key is absent). -/
def childrenOfKey (pcm : PCM) (k : String) : List String :=
  ((lookupA pcm k).getD ⟨false, [], none⟩).children

/-- Whether the first character of a string is an opening bracket; every
role-prefixed parent key satisfies it, while XML local names never do. -/
def headIsLBrack (s : String) : Bool :=
  match s.data with
  | [] => false
  | ch :: _ => ch == '['

/-- Invariant of the parent-child map under the bare-local-name assumption:
an entry whose key does not begin with an opening bracket has no children,
and every recorded child name does not begin with an opening bracket. -/
def pcmBareOk (pcm : PCM) : Prop :=
  ∀ ke ∈ pcm, (headIsLBrack (Prod.fst ke) = false → (Prod.snd ke).children = []) ∧
    (∀ x ∈ (Prod.snd ke).children, headIsLBrack x = false)

end DimensionParser
section ConcreteInputs

open DimensionParser FormulaWalker

/-- Concrete external object named `A` (local name and rendered name both `A`). -/
def objA : ExtObj := ⟨some ⟨"A", "A"⟩, false⟩

/-- Concrete external object named `B`. -/
def objB : ExtObj := ⟨some ⟨"B", "B"⟩, false⟩

/-- Concrete external object named `C`. -/
def objC : ExtObj := ⟨some ⟨"C", "C"⟩, false⟩

/-- Concrete external object named `D`. -/
def objD : ExtObj := ⟨some ⟨"D", "D"⟩, false⟩

/-- The chain edge set `A→B, B→C`. -/
def chainRels : List Relationship := [⟨some objA, some objB⟩, ⟨some objB, some objC⟩]

/-- The pure ring edge set `A→B, B→C, C→A`. -/
def ringRels : List Relationship :=
  [⟨some objA, some objB⟩, ⟨some objB, some objC⟩, ⟨some objC, some objA⟩]

/-- The two-edge cyclic edge set `A→B, B→A`. -/
def cycRels : List Relationship := [⟨some objA, some objB⟩, ⟨some objB, some objA⟩]

/-- The diamond edge set `A→B, A→C, B→D, C→D`. -/
def fanRels : List Relationship :=
  [⟨some objA, some objB⟩, ⟨some objA, some objC⟩,
   ⟨some objB, some objD⟩, ⟨some objC, some objD⟩]

/-- A parent-child map containing a genuine diamond under a single root:
`A` has children `B` and `C`, each of which has the child `D`. -/
def diamondPCM : PCM :=
  [("A", ⟨false, ["B", "C"], none⟩), ("B", ⟨false, ["D"], none⟩),
   ("C", ⟨false, ["D"], none⟩), ("D", ⟨false, [], none⟩)]

/-- Concrete external object named `X`. -/
def objX : ExtObj := ⟨some ⟨"X", "X"⟩, false⟩

/-- Concrete external object named `Revenue`. -/
def objRevenue : ExtObj := ⟨some ⟨"Revenue", "Revenue"⟩, false⟩

/-- Concrete external object named `Y`. -/
def objY : ExtObj := ⟨some ⟨"Y", "Y"⟩, false⟩

/-- Edges `X→Revenue, Revenue→Y`, to be processed under a link role whose
URI ends in `/role/Balance`. -/
def balRels : List Relationship := [⟨some objX, some objRevenue⟩, ⟨some objRevenue, some objY⟩]

/-- A one-root scope hierarchy contributing the single child `X` under `R`. -/
def scopeWithX : TaxonomyParser.THierarchy := [("R", ⟨false, [⟨"X", false⟩]⟩)]

/-- The i-th formula object of the 150-object chain: identity `i`, label
`n<i>`, element type `typ`. -/
def fob (i : Nat) : FObj := ⟨i, some ("n" ++ toString i), "typ"⟩

/-- The 149 formula-arc relationships forming the linear chain
`n0 → n1 → ... → n149`. -/
def chainFRels : List FRel := (List.range 149).map (fun i => ⟨fob i, some (fob (i + 1))⟩)

/-- The expected truncated formula hierarchy: `expAux k` is the nested
dictionary rooted at chain object `100 - k`, ending at object `100` whose
single child slot holds the empty dictionary left by the depth guard. -/
def expAux : Nat → FDict
  | 0 => FDict.mk [FEntryKV.mk ("n" ++ toString 100) "typ" (some ("n" ++ toString 100)) [FDict.mk []]]
  | k + 1 =>
    FDict.mk [FEntryKV.mk ("n" ++ toString (99 - k)) "typ" (some ("n" ++ toString (99 - k))) [expAux k]]

end ConcreteInputs

theorem lookupA_some_mem {α : Type} {l : List (String × α)} {k : String} {v : α}
    (h : lookupA l k = some v) : (k, v) ∈ l := by
  induction l with
  | nil => simp [lookupA] at h
  | cons kv rest ih =>
    obtain ⟨k1, v1⟩ := kv
    by_cases hk : k1 = k
    · subst hk
      simp [lookupA] at h
      simp [h]
    · simp [lookupA, hk] at h
      exact List.mem_cons_of_mem _ (ih h)

theorem mem_keysA_of_lookupA {α : Type} {l : List (String × α)} {k : String} {v : α}
    (h : lookupA l k = some v) : k ∈ keysA l := by
  have hm := lookupA_some_mem h
  exact List.mem_map.mpr ⟨(k, v), hm, rfl⟩

namespace DimensionParser

theorem namesList_cons (t : Node) (rest : List Node) :
    namesList (t :: rest) = namesList [t] ++ namesList rest := by
  cases t with
  | mk n a cs => simp [namesList]

theorem mem_namesList_iff (s : String) (l : List Node) :
    s ∈ namesList l ↔ ∃ u ∈ l, s ∈ namesList [u] := by
  induction l with
  | nil => simp [namesList]
  | cons t rest ih =>
    rw [namesList_cons, List.mem_append, ih]
    simp

theorem namesList_singleton (n : String) (a : Bool) (cs : List Node) :
    namesList [Node.mk n a cs] = n :: namesList cs := by
  simp [namesList]

theorem nodeAcyclic_cons (t : Node) (rest : List Node) :
    nodeAcyclic (t :: rest) = (nodeAcyclic [t] && nodeAcyclic rest) := by
  cases t with
  | mk n a cs => simp [nodeAcyclic, Bool.and_assoc]

theorem nodeAcyclic_all (l : List Node) :
    nodeAcyclic l = true ↔ ∀ t ∈ l, nodeAcyclic [t] = true := by
  induction l with
  | nil => simp [nodeAcyclic]
  | cons t rest ih =>
    rw [nodeAcyclic_cons]
    simp [ih]

theorem nodeAcyclic_node (n : String) (a : Bool) (cs : List Node) :
    nodeAcyclic [Node.mk n a cs] = true ↔ n ∉ namesList cs ∧ nodeAcyclic cs = true := by
  simp [nodeAcyclic]

theorem build_spec (pcm : PCM) :
    ∀ (fuel : Nat) (nodeName : String) (visited : List String) (t : Node),
      build pcm fuel nodeName visited = some t →
      t.name = nodeName ∧ nodeName ∉ visited ∧
      (∀ s, s ∈ namesList t.children → s ∉ visited ∧ s ≠ nodeName) ∧
      nodeAcyclic [t] = true := by
  intro fuel
  induction fuel with
  | zero => intro nodeName visited t h; simp [build] at h
  | succ fuel ih =>
    intro nodeName visited t h
    rw [build] at h
    by_cases hv : nodeName ∈ visited
    · simp [hv] at h
    · simp only [hv, if_false, if_neg, not_false_iff, Option.some.injEq] at h
      have hkmem : ∀ u,
          u ∈ ((lookupA pcm nodeName).getD ⟨false, [], none⟩).children.filterMap
            (fun c => if (lookupA pcm c).isSome then build pcm fuel c (nodeName :: visited) else none) →
          ∃ c, build pcm fuel c (nodeName :: visited) = some u := by
        intro u hu
        rw [List.mem_filterMap] at hu
        obtain ⟨c, _, hcu⟩ := hu
        by_cases hck : (lookupA pcm c).isSome
        · rw [if_pos hck] at hcu
          exact ⟨c, hcu⟩
        · rw [if_neg hck] at hcu
          exact absurd hcu (by simp)
      subst h
      refine ⟨rfl, hv, ?_, ?_⟩
      · intro s hs
        have hs' : s ∈ namesList (((lookupA pcm nodeName).getD ⟨false, [], none⟩).children.filterMap
            (fun c => if (lookupA pcm c).isSome then build pcm fuel c (nodeName :: visited) else none)) := hs
        rw [mem_namesList_iff] at hs'
        obtain ⟨u, hu, hsu⟩ := hs'
        obtain ⟨c, hcu⟩ := hkmem u hu
        obtain ⟨hname, hnvis, hdesc, _⟩ := ih c (nodeName :: visited) u hcu
        rcases u with ⟨un, ua, ucs⟩
        have hun : un = c := hname
        subst hun
        rw [namesList_singleton, List.mem_cons] at hsu
        rcases hsu with hsc | hsd
        · subst hsc
          simp only [List.mem_cons, not_or] at hnvis
          exact ⟨hnvis.2, hnvis.1⟩
        · have h2 := (hdesc s hsd).1
          simp only [List.mem_cons, not_or] at h2
          exact ⟨h2.2, h2.1⟩
      · rw [nodeAcyclic_node]
        constructor
        · intro hin
          rw [mem_namesList_iff] at hin
          obtain ⟨u, hu, hsu⟩ := hin
          obtain ⟨c, hcu⟩ := hkmem u hu
          obtain ⟨hname, hnvis, hdesc, _⟩ := ih c (nodeName :: visited) u hcu
          rcases u with ⟨un, ua, ucs⟩
          have hun : un = c := hname
          subst hun
          rw [namesList_singleton, List.mem_cons] at hsu
          rcases hsu with hsc | hsd
          · subst hsc
            simp at hnvis
          · have := (hdesc nodeName hsd).1
            simp at this
        · rw [nodeAcyclic_all]
          intro u hu
          obtain ⟨c, hcu⟩ := hkmem u hu
          exact (ih c (nodeName :: visited) u hcu).2.2.2

end DimensionParser

namespace DimensionParser

/-- C1: for every input edge set processed by `processRelationships` in one
(arc-role, link-role) scope, every tree in the returned hierarchy is
acyclic: no materialized node's name occurs anywhere in its own subtree,
transitively, even when the input edge set contains a cycle. -/
theorem hierarchy_output_acyclic (elr : String) (rels : List Relationship)
    (rt : String) (t : Node)
    (hmem : (rt, some t) ∈ processRelationships elr rels) :
    nodeAcyclic [t] = true := by
  unfold processRelationships at hmem
  rw [List.mem_map] at hmem
  obtain ⟨r, hr, heq⟩ := hmem
  have hb : build (buildPCM elr rels) ((buildPCM elr rels).length + 1) r [] = some t := by
    have := congrArg Prod.snd heq
    simpa using this
  exact (build_spec _ _ _ _ _ hb).2.2.2

/-- Witness for C1 at the concrete cyclic edge set A→B together with B→A:
the tree returned for the first detected root is acyclic. -/
theorem hierarchy_output_acyclic_witness :
    (("[e] A", some (Node.mk "[e] A" false [Node.mk "B" false []])) ∈
      processRelationships "e" cycRels) ∧
    nodeAcyclic [Node.mk "[e] A" false [Node.mk "B" false []]] = true := by
  have hmem : ("[e] A", some (Node.mk "[e] A" false [Node.mk "B" false []])) ∈
      processRelationships "e" cycRels := by
    have he : processRelationships "e" cycRels =
        [("[e] A", some (Node.mk "[e] A" false [Node.mk "B" false []])),
         ("[e] B", some (Node.mk "[e] B" false [Node.mk "A" false []]))] := rfl
    rw [he]
    exact List.mem_cons_self _ _
  exact ⟨hmem, hierarchy_output_acyclic "e" cycRels _ _ hmem⟩

/-- C2 counterexample: for the edge set A→B, B→C under link role
`http://x/role/t`, the detected root set is not the singleton containing A:
the bare name A is not a root at all and there are two roots, so a single
tree rooted at A with the chain A→B→C is not returned. -/
theorem chain_root_detection_cex :
    "A" ∉ rootNodes (buildPCM "http://x/role/t" chainRels) ∧
    (rootNodes (buildPCM "http://x/role/t" chainRels)).length = 2 := by
  decide

/-- C2 amended: for the edge set A→B, B→C under a link role whose URI ends
in `/t`, the detected roots are the two role-prefixed parent names, and the
returned hierarchy holds two depth-2 trees: one rooted at the prefixed A
with the single bare child B, one rooted at the prefixed B with the single
bare child C; the bare chain A→B→C does not materialize because parent
keys carry the role prefix while child keys stay bare. -/
theorem chain_root_detection_amended :
    processRelationships "http://x/role/t" chainRels =
      [("[t] A", some (Node.mk "[t] A" false [Node.mk "B" false []])),
       ("[t] B", some (Node.mk "[t] B" false [Node.mk "C" false []]))] := rfl

/-- C6 counterexample: for the pure ring A→B, B→C, C→A under link role
`http://x/role/t`, the bare name A is not among the detected roots, and the
root set is not the full key set — so the claimed fallback root set
consisting of every node does not occur. -/
theorem ring_fallback_cex :
    "A" ∉ rootNodes (buildPCM "http://x/role/t" ringRels) ∧
    rootNodes (buildPCM "http://x/role/t" ringRels) ≠
      keysA (buildPCM "http://x/role/t" ringRels) := by
  decide

/-- C6 amended: the pure ring A→B, B→C, C→A yields the root set holding
exactly the three role-prefixed parent names, obtained by the ordinary
parents-minus-children difference (the fallback branch is not taken, since
the parents-minus-children filter is non-empty), and not an empty forest. -/
theorem ring_roots_amended :
    rootNodes (buildPCM "http://x/role/t" ringRels) = ["[t] A", "[t] B", "[t] C"] ∧
    (keysA (buildPCM "http://x/role/t" ringRels)).filter
      (fun k => !decide (k ∈ allChildrenNames (buildPCM "http://x/role/t" ringRels))) ≠ [] := by
  decide

/-- C5: for every parent-child map, the root resolver returns a subset of
the map's keys; the returned root set is non-empty whenever the map is
non-empty; when the parents-minus-children difference is non-empty it is
returned exactly, and when it is empty the full key set is returned. -/
theorem rootResolver_spec :
    ∀ pcm : PCM,
      (∀ x ∈ rootNodes pcm, x ∈ keysA pcm) ∧
      (pcm ≠ [] → rootNodes pcm ≠ []) ∧
      ((keysA pcm).filter (fun k => !decide (k ∈ allChildrenNames pcm)) ≠ [] →
        rootNodes pcm = (keysA pcm).filter (fun k => !decide (k ∈ allChildrenNames pcm))) ∧
      ((keysA pcm).filter (fun k => !decide (k ∈ allChildrenNames pcm)) = [] →
        rootNodes pcm = keysA pcm) := by
  intro pcm
  unfold rootNodes
  by_cases hne : ((keysA pcm).filter (fun k => !decide (k ∈ allChildrenNames pcm))).isEmpty
  · rw [if_pos hne]
    rw [List.isEmpty_iff] at hne
    refine ⟨fun x hx => hx, ?_, ?_, fun _ => rfl⟩
    · intro hpcm
      intro hk
      apply hpcm
      cases pcm with
      | nil => rfl
      | cons a l => simp [keysA] at hk
    · intro hcon
      exact absurd hne hcon
  · rw [if_neg hne]
    rw [List.isEmpty_iff] at hne
    refine ⟨?_, ?_, fun _ => rfl, ?_⟩
    · intro x hx
      exact (List.mem_filter.mp hx).1
    · intro _
      exact hne
    · intro hcon
      exact absurd hcon hne

/-- Witness for C5 at the concrete two-edge chain map: the map is
non-empty, the first root is a key, and the root set is non-empty. -/
theorem rootResolver_spec_witness :
    ("[e] A" ∈ rootNodes (buildPCM "e" chainRels)) ∧
    ("[e] A" ∈ keysA (buildPCM "e" chainRels)) ∧
    (buildPCM "e" chainRels ≠ []) ∧
    (rootNodes (buildPCM "e" chainRels) ≠ []) := by
  have h1 : "[e] A" ∈ rootNodes (buildPCM "e" chainRels) := by decide
  have h2 : buildPCM "e" chainRels ≠ [] := by decide
  exact ⟨h1, (rootResolver_spec (buildPCM "e" chainRels)).1 _ h1, h2,
    (rootResolver_spec (buildPCM "e" chainRels)).2.1 h2⟩

end DimensionParser

/-- C7: for the diamond edge set A→B, A→C, B→D, C→D, the flat builder of
taxonomy_parser records D as a child under both B and C (two occurrences,
not collapsed); and the recursive tree materialization of dimension_parser,
applied to a parent-child map holding that diamond, produces a single tree
in which D appears under both B and C, because the cycle guard is a
path-visited set added on entry and removed on exit rather than a global
memo. -/
theorem fanin_preserved :
    (TaxonomyParser.processRelationships fanRels).1 =
      [("A", ⟨false, [⟨"B", false⟩, ⟨"C", false⟩]⟩),
       ("B", ⟨false, [⟨"D", false⟩]⟩),
       ("C", ⟨false, [⟨"D", false⟩]⟩)] ∧
    DimensionParser.build diamondPCM 5 "A" [] =
      some (DimensionParser.Node.mk "A" false
        [DimensionParser.Node.mk "B" false [DimensionParser.Node.mk "D" false []],
         DimensionParser.Node.mk "C" false [DimensionParser.Node.mk "D" false []]]) :=
  ⟨rfl, rfl⟩

theorem keysA_append {α : Type} (l l' : List (String × α)) :
    keysA (l ++ l') = keysA l ++ keysA l' := by
  simp [keysA]

theorem mem_keysA_append_left {α : Type} {l : List (String × α)} (l' : List (String × α))
    {k : String} (hk : k ∈ keysA l) : k ∈ keysA (l ++ l') := by
  rw [keysA_append]
  exact List.mem_append_left _ hk

theorem keysA_updateA {α : Type} (l : List (String × α)) (k : String) (f : α → α) :
    keysA (updateA l k f) = keysA l := by
  induction l with
  | nil => rfl
  | cons kv rest ih =>
    obtain ⟨k1, v1⟩ := kv
    by_cases hk : k1 = k
    · simp [updateA, hk, keysA]
    · simp only [updateA, if_neg hk, keysA, List.map_cons]
      simp only [keysA] at ih
      rw [ih]

theorem lookupA_updateA_self {α : Type} (l : List (String × α)) (k : String) (f : α → α) :
    lookupA (updateA l k f) k = (lookupA l k).map f := by
  induction l with
  | nil => rfl
  | cons kv rest ih =>
    obtain ⟨k1, v1⟩ := kv
    by_cases hk : k1 = k
    · simp [updateA, lookupA, hk]
    · simp [updateA, lookupA, hk, ih]

theorem lookupA_updateA_ne {α : Type} (l : List (String × α)) (k k' : String) (f : α → α)
    (h : k' ≠ k) : lookupA (updateA l k f) k' = lookupA l k' := by
  induction l with
  | nil => rfl
  | cons kv rest ih =>
    obtain ⟨k1, v1⟩ := kv
    by_cases hk : k1 = k
    · subst hk
      have hne : k1 ≠ k' := fun hq => h (hq ▸ rfl)
      simp [updateA, lookupA, hne]
    · by_cases hk' : k1 = k'
      · simp [updateA, lookupA, hk, hk', h]
      · simp [updateA, lookupA, hk, hk', ih]

theorem lookupA_append_left {α : Type} {l : List (String × α)} (l' : List (String × α))
    {k : String} {v : α} (h : lookupA l k = some v) : lookupA (l ++ l') k = some v := by
  induction l with
  | nil => simp [lookupA] at h
  | cons kv rest ih =>
    obtain ⟨k1, v1⟩ := kv
    by_cases hk : k1 = k
    · simp [lookupA, hk] at h ⊢
      exact h
    · simp [lookupA, hk] at h ⊢
      exact ih h

theorem lookupA_append_none {α : Type} {l : List (String × α)} (l' : List (String × α))
    {k : String} (h : lookupA l k = none) : lookupA (l ++ l') k = lookupA l' k := by
  induction l with
  | nil => simp
  | cons kv rest ih =>
    obtain ⟨k1, v1⟩ := kv
    by_cases hk : k1 = k
    · simp [lookupA, hk] at h
    · simp [lookupA, hk] at h ⊢
      exact ih h

namespace DimensionParser

theorem mem_addChildName (cs : List String) (c x : String) :
    x ∈ addChildName cs c ↔ x ∈ cs ∨ x = c := by
  by_cases h : c ∈ cs
  · simp only [addChildName, if_pos h]
    constructor
    · exact Or.inl
    · rintro (hx | rfl)
      · exact hx
      · exact h
  · simp [addChildName, h]

theorem childrenOfKey_append (pcm : PCM) (kv : String × PCMEntry) (k x : String)
    (hx : x ∈ childrenOfKey pcm k) : x ∈ childrenOfKey (pcm ++ [kv]) k := by
  unfold childrenOfKey at hx ⊢
  cases hlk : lookupA pcm k with
  | none => rw [hlk] at hx; simp [PCMEntry.children] at hx
  | some e =>
    rw [hlk] at hx
    rw [lookupA_append_left _ hlk]
    exact hx

theorem childrenOfKey_updateParent (pcm : PCM) (k x pn cn : String)
    (hx : x ∈ childrenOfKey pcm k) :
    x ∈ childrenOfKey (updateA pcm cn (fun e => { e with parent := some pn })) k := by
  unfold childrenOfKey at hx ⊢
  by_cases hk : k = cn
  · subst hk
    rw [lookupA_updateA_self]
    cases hlk : lookupA pcm k with
    | none => rw [hlk] at hx; simp [PCMEntry.children] at hx
    | some e =>
      rw [hlk] at hx
      exact hx
  · rw [lookupA_updateA_ne _ _ _ _ hk]
    exact hx

theorem childrenOfKey_updateChildren (pcm : PCM) (k x pn cn : String)
    (hx : x ∈ childrenOfKey pcm k) :
    x ∈ childrenOfKey (updateA pcm pn (fun e => { e with children := addChildName e.children cn })) k := by
  unfold childrenOfKey at hx ⊢
  by_cases hk : k = pn
  · subst hk
    rw [lookupA_updateA_self]
    cases hlk : lookupA pcm k with
    | none => rw [hlk] at hx; simp [PCMEntry.children] at hx
    | some e =>
      rw [hlk] at hx
      exact (mem_addChildName _ _ _).mpr (Or.inl hx)
  · rw [lookupA_updateA_ne _ _ _ _ hk]
    exact hx

theorem pcmInsert_keys_mono (elr : String) (pcm : PCM) (p c : ExtObj) (pq cq : QName)
    (k : String) (hk : k ∈ keysA pcm) : k ∈ keysA (pcmInsert elr pcm p c pq cq) := by
  simp only [pcmInsert]
  rw [keysA_updateA, keysA_updateA]
  split_ifs
  all_goals
    first
      | exact hk
      | exact mem_keysA_append_left _ hk
      | exact mem_keysA_append_left _ (mem_keysA_append_left _ hk)

theorem pcmInsert_children_mono (elr : String) (pcm : PCM) (p c : ExtObj) (pq cq : QName)
    (k x : String) (hx : x ∈ childrenOfKey pcm k) :
    x ∈ childrenOfKey (pcmInsert elr pcm p c pq cq) k := by
  simp only [pcmInsert]
  apply childrenOfKey_updateChildren
  apply childrenOfKey_updateParent
  split_ifs
  all_goals
    first
      | exact hx
      | exact childrenOfKey_append _ _ _ _ hx
      | exact childrenOfKey_append _ _ _ _ (childrenOfKey_append _ _ _ _ hx)

end DimensionParser

theorem hasKeyA_ensure {α : Type} (l : List (String × α)) (k : String) (v : α) :
    ∃ e, lookupA (if hasKeyA l k then l else l ++ [(k, v)]) k = some e := by
  by_cases h : hasKeyA l k
  · rw [if_pos h]
    unfold hasKeyA at h
    cases hlk : lookupA l k with
    | none => rw [hlk] at h; simp at h
    | some e => exact ⟨e, rfl⟩
  · rw [if_neg h]
    unfold hasKeyA at h
    cases hlk : lookupA l k with
    | some e => rw [hlk] at h; simp at h
    | none =>
      refine ⟨v, ?_⟩
      rw [lookupA_append_none _ hlk]
      simp [lookupA]

theorem lookupA_ensure_other {α : Type} (l : List (String × α)) (k k' : String) (v : α)
    {e : α} (h : lookupA l k' = some e) :
    lookupA (if hasKeyA l k then l else l ++ [(k, v)]) k' = some e := by
  by_cases hb : hasKeyA l k
  · rw [if_pos hb]; exact h
  · rw [if_neg hb]; exact lookupA_append_left _ h

namespace DimensionParser

theorem pcmInsert_establish (elr : String) (pcm : PCM) (p c : ExtObj) (pq cq : QName) :
    (rolePrefixStr elr ++ pq.localName) ∈ keysA (pcmInsert elr pcm p c pq cq) ∧
    cq.localName ∈ childrenOfKey (pcmInsert elr pcm p c pq cq) (rolePrefixStr elr ++ pq.localName) := by
  simp only [pcmInsert]
  set pn := rolePrefixStr elr ++ pq.localName with hpn
  set cn := cq.localName with hcn
  set pcm1 := if hasKeyA pcm pn then pcm
    else pcm ++ [(pn, (⟨p.isAbstract, [], none⟩ : PCMEntry))] with hpcm1
  set pcm2 := if hasKeyA pcm1 cn then pcm1
    else pcm1 ++ [(cn, (⟨c.isAbstract, [], none⟩ : PCMEntry))] with hpcm2
  set pcm3 := updateA pcm2 cn (fun e => { e with parent := some pn }) with hpcm3
  obtain ⟨e1, he1⟩ := hasKeyA_ensure pcm pn (⟨p.isAbstract, [], none⟩ : PCMEntry)
  have he1' : lookupA pcm1 pn = some e1 := by rw [hpcm1]; exact he1
  have he2 : lookupA pcm2 pn = some e1 := by
    rw [hpcm2]
    exact lookupA_ensure_other pcm1 cn pn _ he1'
  have he3 : ∃ e3 : PCMEntry, lookupA pcm3 pn = some e3 := by
    rw [hpcm3]
    by_cases hpc : pn = cn
    · refine ⟨{ e1 with parent := some pn }, ?_⟩
      rw [hpc, lookupA_updateA_self]
      rw [← hpc, he2]
      rfl
    · refine ⟨e1, ?_⟩
      rw [lookupA_updateA_ne _ _ _ _ hpc]
      exact he2
  obtain ⟨e3, he3⟩ := he3
  have hf : lookupA (updateA pcm3 pn
      (fun e => { e with children := addChildName e.children cn })) pn =
      some { e3 with children := addChildName e3.children cn } := by
    rw [lookupA_updateA_self, he3]
    rfl
  constructor
  · exact mem_keysA_of_lookupA hf
  · unfold childrenOfKey
    rw [hf]
    exact (mem_addChildName _ _ _).mpr (Or.inr rfl)

theorem pcmStep_keys_mono (elr : String) (pcm : PCM) (r : Relationship) (k : String)
    (hk : k ∈ keysA pcm) : k ∈ keysA (pcmStep elr pcm r) := by
  rcases r with ⟨fo, tov⟩
  rcases fo with _ | p
  · simpa [pcmStep] using hk
  · rcases tov with _ | c
    · simpa [pcmStep] using hk
    · rcases p with ⟨pqo, pa⟩
      rcases pqo with _ | pq
      · simpa [pcmStep] using hk
      · rcases c with ⟨cqo, ca⟩
        rcases cqo with _ | cq
        · simpa [pcmStep] using hk
        · simp only [pcmStep]
          exact pcmInsert_keys_mono elr pcm _ _ pq cq k hk

theorem pcmStep_children_mono (elr : String) (pcm : PCM) (r : Relationship) (k x : String)
    (hx : x ∈ childrenOfKey pcm k) : x ∈ childrenOfKey (pcmStep elr pcm r) k := by
  rcases r with ⟨fo, tov⟩
  rcases fo with _ | p
  · simpa [pcmStep] using hx
  · rcases tov with _ | c
    · simpa [pcmStep] using hx
    · rcases p with ⟨pqo, pa⟩
      rcases pqo with _ | pq
      · simpa [pcmStep] using hx
      · rcases c with ⟨cqo, ca⟩
        rcases cqo with _ | cq
        · simpa [pcmStep] using hx
        · simp only [pcmStep]
          exact pcmInsert_children_mono elr pcm _ _ pq cq k x hx

theorem pcmStep_eq_insert (elr : String) (pcm : PCM) (p c : ExtObj) (pq cq : QName)
    (hpq : p.qname = some pq) (hcq : c.qname = some cq) :
    pcmStep elr pcm ⟨some p, some c⟩ = pcmInsert elr pcm p c pq cq := by
  simp [pcmStep, hpq, hcq]

theorem foldl_pcmStep_keys_mono (elr : String) :
    ∀ (rels : List Relationship) (pcm : PCM) (k : String), k ∈ keysA pcm →
      k ∈ keysA (rels.foldl (pcmStep elr) pcm) := by
  intro rels
  induction rels with
  | nil => intro pcm k hk; exact hk
  | cons a rest ih =>
    intro pcm k hk
    rw [List.foldl_cons]
    exact ih _ _ (pcmStep_keys_mono elr pcm a k hk)

theorem foldl_pcmStep_children_mono (elr : String) :
    ∀ (rels : List Relationship) (pcm : PCM) (k x : String), x ∈ childrenOfKey pcm k →
      x ∈ childrenOfKey (rels.foldl (pcmStep elr) pcm) k := by
  intro rels
  induction rels with
  | nil => intro pcm k x hx; exact hx
  | cons a rest ih =>
    intro pcm k x hx
    rw [List.foldl_cons]
    exact ih _ _ _ (pcmStep_children_mono elr pcm a k x hx)

theorem buildPCM_naming_aux (elr : String) :
    ∀ (rels : List Relationship) (pcm : PCM) (r : Relationship) (p c : ExtObj) (pq cq : QName),
      r ∈ rels → r.fromObj = some p → r.toObj = some c →
      p.qname = some pq → c.qname = some cq →
      (rolePrefixStr elr ++ pq.localName) ∈ keysA (rels.foldl (pcmStep elr) pcm) ∧
      cq.localName ∈ childrenOfKey (rels.foldl (pcmStep elr) pcm) (rolePrefixStr elr ++ pq.localName) := by
  intro rels
  induction rels with
  | nil =>
    intro pcm r p c pq cq hr
    exact absurd hr (List.not_mem_nil _)
  | cons a rest ih =>
    intro pcm r p c pq cq hr hp hc hpq hcq
    rw [List.foldl_cons]
    rcases List.mem_cons.mp hr with rfl | hr'
    · rcases r with ⟨fo, tov⟩
      have hfo : fo = some p := hp
      have hto : tov = some c := hc
      subst hfo
      subst hto
      rw [pcmStep_eq_insert elr pcm p c pq cq hpq hcq]
      obtain ⟨h1, h2⟩ := pcmInsert_establish elr pcm p c pq cq
      exact ⟨foldl_pcmStep_keys_mono elr rest _ _ h1,
             foldl_pcmStep_children_mono elr rest _ _ _ h2⟩
    · exact ih _ r p c pq cq hr' hp hc hpq hcq

/-- C4: in link-role-scoped hierarchy building, every processed
relationship records its parent under the key formed by prepending the
bracketed tag of the link-role URI's last segment to the parent's local
name, and records the child under that key as the bare local name. -/
theorem parent_child_naming (elr : String) (rels : List Relationship)
    (r : Relationship) (p c : ExtObj) (pq cq : QName)
    (hmem : r ∈ rels) (hp : r.fromObj = some p) (hc : r.toObj = some c)
    (hpq : p.qname = some pq) (hcq : c.qname = some cq) :
    (rolePrefixStr elr ++ pq.localName) ∈ keysA (buildPCM elr rels) ∧
    cq.localName ∈ childrenOfKey (buildPCM elr rels) (rolePrefixStr elr ++ pq.localName) :=
  buildPCM_naming_aux elr rels [] r p c pq cq hmem hp hc hpq hcq

/-- Witness for C4 at the concrete edges X→Revenue, Revenue→Y under the
link role `http://e/role/Balance`: Revenue as a parent is keyed
`[Balance] Revenue`, and as a child it is recorded as the bare `Revenue`. -/
theorem parent_child_naming_witness :
    ((⟨some objX, some objRevenue⟩ : Relationship) ∈ balRels) ∧
    ((⟨some objRevenue, some objY⟩ : Relationship) ∈ balRels) ∧
    ("[Balance] X" ∈ keysA (buildPCM "http://e/role/Balance" balRels) ∧
      "Revenue" ∈ childrenOfKey (buildPCM "http://e/role/Balance" balRels) "[Balance] X") ∧
    ("[Balance] Revenue" ∈ keysA (buildPCM "http://e/role/Balance" balRels) ∧
      "Y" ∈ childrenOfKey (buildPCM "http://e/role/Balance" balRels) "[Balance] Revenue") := by
  refine ⟨by decide, by decide, ?_, ?_⟩
  · exact parent_child_naming "http://e/role/Balance" balRels
      ⟨some objX, some objRevenue⟩ objX objRevenue ⟨"X", "X"⟩ ⟨"Revenue", "Revenue"⟩
      (by decide) rfl rfl rfl rfl
  · exact parent_child_naming "http://e/role/Balance" balRels
      ⟨some objRevenue, some objY⟩ objRevenue objY ⟨"Revenue", "Revenue"⟩ ⟨"Y", "Y"⟩
      (by decide) rfl rfl rfl rfl

end DimensionParser

theorem mem_updateA_cases {α : Type} {l : List (String × α)} {k : String} {f : α → α}
    {ke : String × α} (h : ke ∈ updateA l k f) :
    ke ∈ l ∨ ∃ v, (k, v) ∈ l ∧ ke = (k, f v) := by
  induction l with
  | nil => simp [updateA] at h
  | cons kv rest ih =>
    obtain ⟨k1, v1⟩ := kv
    by_cases hk : k1 = k
    · subst hk
      rw [updateA, if_pos rfl] at h
      rcases List.mem_cons.mp h with rfl | h'
      · exact Or.inr ⟨v1, List.mem_cons_self _ _, rfl⟩
      · exact Or.inl (List.mem_cons_of_mem _ h')
    · rw [updateA, if_neg hk] at h
      rcases List.mem_cons.mp h with rfl | h'
      · exact Or.inl (List.mem_cons_self _ _)
      · rcases ih h' with h'' | ⟨v, hv, rfl⟩
        · exact Or.inl (List.mem_cons_of_mem _ h'')
        · exact Or.inr ⟨v, List.mem_cons_of_mem _ hv, rfl⟩

namespace DimensionParser

theorem headIsLBrack_prefixed (elr s : String) :
    headIsLBrack (rolePrefixStr elr ++ s) = true := by
  unfold headIsLBrack rolePrefixStr
  rw [String.data_append, String.data_append, String.data_append]
  have hlb : ("[" : String).data = ['['] := rfl
  rw [hlb]
  simp

theorem pcmBareOk_nil : pcmBareOk [] := by
  intro ke hke
  simp at hke

theorem pcmBareOk_append (pcm : PCM) (k : String) (a : Bool) (par : Option String)
    (h : pcmBareOk pcm) : pcmBareOk (pcm ++ [(k, ⟨a, [], par⟩)]) := by
  intro ke hke
  rcases List.mem_append.mp hke with hke' | hke'
  · exact h ke hke'
  · rcases List.mem_singleton.mp hke' with rfl
    constructor
    · intro _; rfl
    · intro x hx; simp [PCMEntry.children] at hx

theorem pcmBareOk_updateParent (pcm : PCM) (cn pn : String)
    (h : pcmBareOk pcm) :
    pcmBareOk (updateA pcm cn (fun e => { e with parent := some pn })) := by
  intro ke hke
  rcases mem_updateA_cases hke with hke' | ⟨v, hv, rfl⟩
  · exact h ke hke'
  · exact h (cn, v) hv

theorem pcmBareOk_updateChildren (pcm : PCM) (pn cn : String)
    (hpn : headIsLBrack pn = true) (hcn : headIsLBrack cn = false)
    (h : pcmBareOk pcm) :
    pcmBareOk (updateA pcm pn (fun e => { e with children := addChildName e.children cn })) := by
  intro ke hke
  rcases mem_updateA_cases hke with hke' | ⟨v, hv, rfl⟩
  · exact h ke hke'
  · constructor
    · intro hfalse
      rw [hpn] at hfalse
      exact absurd hfalse (by simp)
    · intro x hx
      rcases (mem_addChildName _ _ _).mp hx with hx' | rfl
      · exact (h (pn, v) hv).2 x hx'
      · exact hcn

theorem pcmInsert_bareOk (elr : String) (pcm : PCM) (p c : ExtObj) (pq cq : QName)
    (hcq : headIsLBrack cq.localName = false) (h : pcmBareOk pcm) :
    pcmBareOk (pcmInsert elr pcm p c pq cq) := by
  simp only [pcmInsert]
  apply pcmBareOk_updateChildren _ _ _ (headIsLBrack_prefixed elr pq.localName) hcq
  apply pcmBareOk_updateParent
  split_ifs
  all_goals
    first
      | exact h
      | exact pcmBareOk_append _ _ _ _ h
      | exact pcmBareOk_append _ _ _ _ (pcmBareOk_append _ _ _ _ h)

theorem buildPCM_bareOk_aux (elr : String) :
    ∀ (rels : List Relationship) (pcm : PCM),
      (∀ r ∈ rels, ∀ (c : ExtObj) (cq : QName), r.toObj = some c → c.qname = some cq →
        headIsLBrack cq.localName = false) →
      pcmBareOk pcm → pcmBareOk (rels.foldl (pcmStep elr) pcm) := by
  intro rels
  induction rels with
  | nil => intro pcm _ h; exact h
  | cons a rest ih =>
    intro pcm hbare h
    rw [List.foldl_cons]
    apply ih
    · intro r hr c cq hc hcq
      exact hbare r (List.mem_cons_of_mem _ hr) c cq hc hcq
    · rcases a with ⟨fo, tov⟩
      rcases fo with _ | p
      · simpa [pcmStep] using h
      · rcases tov with _ | c
        · simpa [pcmStep] using h
        · rcases p with ⟨pqo, pa⟩
          rcases pqo with _ | pq
          · simpa [pcmStep] using h
          · rcases c with ⟨cqo, ca⟩
            rcases cqo with _ | cq
            · simpa [pcmStep] using h
            · simp only [pcmStep]
              apply pcmInsert_bareOk elr pcm _ _ pq cq _ h
              exact hbare ⟨some ⟨some pq, pa⟩, some ⟨some cq, ca⟩⟩ (List.mem_cons_self _ _)
                ⟨some cq, ca⟩ cq rfl rfl

theorem buildPCM_bareOk (elr : String) (rels : List Relationship)
    (hbare : ∀ r ∈ rels, ∀ (c : ExtObj) (cq : QName), r.toObj = some c → c.qname = some cq →
      headIsLBrack cq.localName = false) :
    pcmBareOk (buildPCM elr rels) :=
  buildPCM_bareOk_aux elr rels [] hbare pcmBareOk_nil

theorem depthList_le_one :
    ∀ l : List Node, (∀ u ∈ l, u.children = ([] : List Node)) → depthList l ≤ 1 := by
  intro l
  induction l with
  | nil => intro _; simp [depthList]
  | cons u rest ih =>
    rcases u with ⟨n, a, cs⟩
    intro h
    have hcs : cs = [] := h (Node.mk n a cs) (List.mem_cons_self _ _)
    subst hcs
    have hrest := ih (fun v hv => h v (List.mem_cons_of_mem _ hv))
    have hstep : depthList (Node.mk n a [] :: rest) = max 1 (depthList rest) := by
      simp [depthList]
    rw [hstep]
    exact max_le (by omega) hrest

end DimensionParser

namespace DimensionParser

/-- C10: in the link-role-scoped builder, children are recorded only under
role-prefixed parent keys while child keys are bare local names; when no
bare local name begins with an opening bracket (true of XML local names),
no bare name equals a prefixed name, so every child node in every returned
tree is a leaf and every tree has depth at most 2, whatever the edge set. -/
theorem trees_depth_le_two (elr : String) (rels : List Relationship)
    (hbare : ∀ r ∈ rels, ∀ (c : ExtObj) (cq : QName), r.toObj = some c → c.qname = some cq →
      headIsLBrack cq.localName = false)
    (rt : String) (t : Node)
    (hmem : (rt, some t) ∈ processRelationships elr rels) :
    (∀ u ∈ t.children, u.children = ([] : List Node)) ∧ depthList [t] ≤ 2 := by
  unfold processRelationships at hmem
  rw [List.mem_map] at hmem
  obtain ⟨r0, hr0, heq⟩ := hmem
  have hb : build (buildPCM elr rels) ((buildPCM elr rels).length + 1) r0 [] = some t := by
    have := congrArg Prod.snd heq
    simpa using this
  have hinv := buildPCM_bareOk elr rels hbare
  rw [build] at hb
  rw [if_neg (List.not_mem_nil r0)] at hb
  have ht := Option.some.inj hb
  subst ht
  simp only [Node.children]
  have hleaves : ∀ u ∈ (((lookupA (buildPCM elr rels) r0).getD ⟨false, [], none⟩).children.filterMap
      (fun c => if (lookupA (buildPCM elr rels) c).isSome then
        build (buildPCM elr rels) (buildPCM elr rels).length c (r0 :: []) else none)),
      u.children = ([] : List Node) := by
    intro u hu
    rw [List.mem_filterMap] at hu
    obtain ⟨cname, hcn, hcu⟩ := hu
    by_cases hck : (lookupA (buildPCM elr rels) cname).isSome
    · rw [if_pos hck] at hcu
      have hbarec : headIsLBrack cname = false := by
        cases hlk : lookupA (buildPCM elr rels) r0 with
        | none => rw [hlk] at hcn; simp [PCMEntry.children] at hcn
        | some e =>
          rw [hlk] at hcn
          exact (hinv (r0, e) (lookupA_some_mem hlk)).2 cname hcn
      obtain ⟨ec, hec⟩ := Option.isSome_iff_exists.mp hck
      have hecc : ec.children = [] := (hinv (cname, ec) (lookupA_some_mem hec)).1 hbarec
      cases hfl : (buildPCM elr rels).length with
      | zero =>
        rw [hfl] at hcu
        simp [build] at hcu
      | succ m =>
        rw [hfl, build] at hcu
        by_cases hvis : cname ∈ [r0]
        · rw [if_pos hvis] at hcu
          exact absurd hcu (by simp)
        · rw [if_neg hvis] at hcu
          have hu' := Option.some.inj hcu
          rw [← hu']
          simp only [Node.children]
          rw [hec]
          simp [hecc]
    · rw [if_neg hck] at hcu
      exact absurd hcu (by simp)
  refine ⟨hleaves, ?_⟩
  have hk1 := depthList_le_one _ hleaves
  simp only [depthList, Nat.max_zero]
  omega

end DimensionParser

open DimensionParser in
/-- Witness for C10 at the concrete chain A→B, B→C under link role
`http://x/role/t`: local names carry no bracket, and the tree returned for
the first root has only leaf children and depth 2. -/
theorem trees_depth_le_two_witness :
    (∀ r ∈ chainRels, ∀ (c : ExtObj) (cq : QName), r.toObj = some c → c.qname = some cq →
      headIsLBrack cq.localName = false) ∧
    (("[t] A", some (Node.mk "[t] A" false [Node.mk "B" false []])) ∈
      processRelationships "http://x/role/t" chainRels) ∧
    (∀ u ∈ (Node.mk "[t] A" false [Node.mk "B" false []]).children,
      u.children = ([] : List Node)) ∧
    depthList [Node.mk "[t] A" false [Node.mk "B" false []]] ≤ 2 := by
  have hbare : ∀ r ∈ chainRels, ∀ (c : ExtObj) (cq : QName), r.toObj = some c →
      c.qname = some cq → headIsLBrack cq.localName = false := by
    intro r hr c cq hc hcq
    have hr' : r = ⟨some objA, some objB⟩ ∨ r = ⟨some objB, some objC⟩ := by
      simpa [chainRels] using hr
    rcases hr' with rfl | rfl
    · have hc' : some objB = some c := hc
      obtain rfl : objB = c := Option.some.inj hc'
      have hcq' : some (⟨"B", "B"⟩ : QName) = some cq := hcq
      obtain rfl : (⟨"B", "B"⟩ : QName) = cq := Option.some.inj hcq'
      rfl
    · have hc' : some objC = some c := hc
      obtain rfl : objC = c := Option.some.inj hc'
      have hcq' : some (⟨"C", "C"⟩ : QName) = some cq := hcq
      obtain rfl : (⟨"C", "C"⟩ : QName) = cq := Option.some.inj hcq'
      rfl
  have hmem : ("[t] A", some (Node.mk "[t] A" false [Node.mk "B" false []])) ∈
      processRelationships "http://x/role/t" chainRels := by
    have he : processRelationships "http://x/role/t" chainRels =
        [("[t] A", some (Node.mk "[t] A" false [Node.mk "B" false []])),
         ("[t] B", some (Node.mk "[t] B" false [Node.mk "C" false []]))] := rfl
    rw [he]
    exact List.mem_cons_self _ _
  obtain ⟨h1, h2⟩ := trees_depth_le_two "http://x/role/t" chainRels hbare _ _ hmem
  exact ⟨hbare, hmem, h1, h2⟩

namespace TaxonomyParser

/-- C3: when per-scope hierarchies are merged into the unified map, a root
name not yet present is inserted wholesale; a root name already present has
its children sequence extended by appending the new scope's children with
no de-duplication, so two merged scopes both contributing the child X under
the same root name leave X twice in the unified children sequence. -/
theorem merge_accumulates :
    (∀ (u : THierarchy) (p : String) (d : TEntry), hasKeyA u p = false →
        mergeIntoUnified u [(p, d)] = u ++ [(p, d)]) ∧
    (∀ (u : THierarchy) (p : String) (d : TEntry), hasKeyA u p = true →
        mergeIntoUnified u [(p, d)] =
          updateA u p (fun e => { e with children := e.children ++ d.children })) ∧
    mergeIntoUnified (mergeIntoUnified [] scopeWithX) scopeWithX =
      [("R", ⟨false, [⟨"X", false⟩, ⟨"X", false⟩]⟩)] := by
  refine ⟨?_, ?_, rfl⟩
  · intro u p d h
    simp [mergeIntoUnified, h]
  · intro u p d h
    simp [mergeIntoUnified, h]

/-- Witness for C3 at concrete inputs: merging a scope into an empty
unified map inserts it wholesale, and merging the same scope again extends
the existing children. -/
theorem merge_accumulates_witness :
    (hasKeyA ([] : THierarchy) "R" = false) ∧
    mergeIntoUnified [] [("R", (⟨false, [⟨"X", false⟩]⟩ : TEntry))] =
      [("R", (⟨false, [⟨"X", false⟩]⟩ : TEntry))] ∧
    (hasKeyA scopeWithX "R" = true) ∧
    mergeIntoUnified scopeWithX [("R", (⟨false, [⟨"X", false⟩]⟩ : TEntry))] =
      updateA scopeWithX "R"
        (fun e => { e with children := e.children ++ [⟨"X", false⟩] }) := by
  refine ⟨rfl, ?_, rfl, ?_⟩
  · exact merge_accumulates.1 [] "R" ⟨false, [⟨"X", false⟩]⟩ rfl
  · exact merge_accumulates.2.1 scopeWithX "R" ⟨false, [⟨"X", false⟩]⟩ rfl

theorem relValid_true_elim {r : Relationship} (hv : relValid r = true) :
    ∃ p c pq cq, r = ⟨some p, some c⟩ ∧ ExtObj.qname p = some pq ∧ ExtObj.qname c = some cq := by
  rcases r with ⟨fo, tov⟩
  rcases fo with _ | p
  · simp [relValid] at hv
  · rcases tov with _ | c
    · simp [relValid] at hv
    · rcases hpq : p.qname with _ | pq
      · simp [relValid, hpq] at hv
      · rcases hcq : c.qname with _ | cq
        · simp [relValid, hcq] at hv
        · exact ⟨p, c, pq, cq, rfl, hpq, hcq⟩

theorem txStep_invalid (r : Relationship) (h : THierarchy) (s : List SkipEntry)
    (hv : relValid r = false) :
    txStep (h, s) r = (h, s ++ [skipEntryOf r]) := by
  rcases r with ⟨fo, tov⟩
  rcases fo with _ | p
  · simp [txStep, skipEntryOf]
  · rcases tov with _ | c
    · simp [txStep, skipEntryOf]
    · rcases hpq : p.qname with _ | pq
      · rcases p with ⟨pqo, pa⟩
        rcases c with ⟨cqo, ca⟩
        simp at hpq
        subst hpq
        simp [txStep, skipEntryOf]
      · rcases hcq : c.qname with _ | cq
        · rcases p with ⟨pqo, pa⟩
          rcases c with ⟨cqo, ca⟩
          simp at hpq hcq
          subst hpq
          subst hcq
          simp [txStep, skipEntryOf]
        · exfalso
          simp [relValid, hpq, hcq] at hv

theorem txStep_valid_eq (h : THierarchy) (s : List SkipEntry) (p c : ExtObj) (pq cq : QName)
    (hpq : p.qname = some pq) (hcq : c.qname = some cq) :
    txStep (h, s) ⟨some p, some c⟩ = (txInsert h p c pq cq, s) := by
  simp [txStep, hpq, hcq]

theorem txHierarchy_skip_invariant :
    ∀ (rels : List Relationship) (h : THierarchy) (s s' : List SkipEntry),
      (rels.foldl txStep (h, s)).1 = ((rels.filter relValid).foldl txStep (h, s')).1 := by
  intro rels
  induction rels with
  | nil => intro h s s'; rfl
  | cons a rest ih =>
    intro h s s'
    rw [List.foldl_cons]
    by_cases hv : relValid a = true
    · rw [List.filter_cons_of_pos hv, List.foldl_cons]
      obtain ⟨p, c, pq, cq, rfl, hpq, hcq⟩ := relValid_true_elim hv
      rw [txStep_valid_eq h s p c pq cq hpq hcq, txStep_valid_eq h s' p c pq cq hpq hcq]
      exact ih _ _ _
    · have hv' : relValid a = false := by simpa using hv
      rw [List.filter_cons_of_neg (by simp [hv'])]
      rw [txStep_invalid a h s hv']
      exact ih _ _ _

theorem txSkips_spec :
    ∀ (rels : List Relationship) (h : THierarchy) (s : List SkipEntry),
      (rels.foldl txStep (h, s)).2 = s ++ (rels.filter (fun r => !relValid r)).map skipEntryOf := by
  intro rels
  induction rels with
  | nil => intro h s; simp
  | cons a rest ih =>
    intro h s
    rw [List.foldl_cons]
    by_cases hv : relValid a = true
    · rw [List.filter_cons_of_neg (by simp [hv])]
      obtain ⟨p, c, pq, cq, rfl, hpq, hcq⟩ := relValid_true_elim hv
      rw [txStep_valid_eq h s p c pq cq hpq hcq]
      exact ih _ _
    · have hv' : relValid a = false := by simpa using hv
      rw [List.filter_cons_of_pos (by simp [hv'])]
      rw [txStep_invalid a h s hv']
      rw [ih _ _]
      simp

theorem pcmStep_invalid (elr : String) (pcm : DimensionParser.PCM) (r : Relationship)
    (hv : relValid r = false) : DimensionParser.pcmStep elr pcm r = pcm := by
  rcases r with ⟨fo, tov⟩
  rcases fo with _ | p
  · simp [DimensionParser.pcmStep]
  · rcases tov with _ | c
    · simp [DimensionParser.pcmStep]
    · rcases hpq : p.qname with _ | pq
      · rcases p with ⟨pqo, pa⟩
        simp at hpq
        subst hpq
        simp [DimensionParser.pcmStep]
      · rcases hcq : c.qname with _ | cq
        · rcases p with ⟨pqo, pa⟩
          rcases c with ⟨cqo, ca⟩
          simp at hcq
          subst hcq
          cases pqo <;> simp [DimensionParser.pcmStep]
        · exfalso
          simp [relValid, hpq, hcq] at hv

theorem buildPCM_filter (elr : String) :
    ∀ (rels : List Relationship) (pcm : DimensionParser.PCM),
      rels.foldl (DimensionParser.pcmStep elr) pcm =
        (rels.filter relValid).foldl (DimensionParser.pcmStep elr) pcm := by
  intro rels
  induction rels with
  | nil => intro pcm; rfl
  | cons a rest ih =>
    intro pcm
    rw [List.foldl_cons]
    by_cases hv : relValid a = true
    · rw [List.filter_cons_of_pos hv, List.foldl_cons]
      exact ih _
    · have hv' : relValid a = false := by simpa using hv
      rw [List.filter_cons_of_neg (by simp [hv'])]
      rw [pcmStep_invalid elr pcm a hv']
      exact ih _

/-- C9: a record with a missing endpoint or a missing qualified name is
excluded from the built hierarchy without error while every remaining
record is still processed (the hierarchy equals the one built from the
valid records alone); the taxonomy collector records one (parent, child,
reason) skip entry per excluded record, while the dimension collector
drops excluded records silently, leaving its map unchanged by them. -/
theorem skip_and_continue :
    (∀ rels : List Relationship,
      (processRelationships rels).1 = (processRelationships (rels.filter relValid)).1) ∧
    (∀ rels : List Relationship,
      (processRelationships rels).2 = (rels.filter (fun r => !relValid r)).map skipEntryOf) ∧
    (∀ (elr : String) (rels : List Relationship),
      DimensionParser.buildPCM elr rels = DimensionParser.buildPCM elr (rels.filter relValid)) := by
  refine ⟨?_, ?_, ?_⟩
  · intro rels
    exact txHierarchy_skip_invariant rels [] [] []
  · intro rels
    have h := txSkips_spec rels [] []
    simpa using h
  · intro elr rels
    exact buildPCM_filter elr rels []

end TaxonomyParser

namespace FormulaWalker

theorem fdepthDicts_nil : fdepthDicts [] = 0 := by
  simp [fdepthDicts]

theorem fdepthEntries_nil : fdepthEntries [] = 0 := by
  simp [fdepthEntries]

theorem fdepthDicts_cons (es : List FEntryKV) (ds : List FDict) :
    fdepthDicts (FDict.mk es :: ds) = max (fdepthEntries es) (fdepthDicts ds) := by
  simp [fdepthDicts]

theorem fdepthEntries_cons (n t : String) (lb : Option String) (cs : List FDict)
    (es : List FEntryKV) :
    fdepthEntries (FEntryKV.mk n t lb cs :: es) = max (1 + fdepthDicts cs) (fdepthEntries es) := by
  simp [fdepthEntries]

theorem pfoAux_depth_exceeded (rels : List FRel) (maxDepth gas : Nat) (obj : FObj)
    (h : FDict) (visited : List FObj) (depth : Nat) (hd : depth > maxDepth) :
    pfoAux rels maxDepth gas obj h visited depth = h := by
  cases gas with
  | zero => rfl
  | succ g => rw [pfoAux, if_pos hd]

theorem expAux_depth : ∀ k : Nat, FDict.depth (expAux k) = k + 1 := by
  intro k
  induction k with
  | zero =>
    show fdepthDicts [expAux 0] = 1
    rw [show expAux 0 = FDict.mk [FEntryKV.mk ("n" ++ toString 100) "typ"
      (some ("n" ++ toString 100)) [FDict.mk []]] from rfl]
    rw [fdepthDicts_cons, fdepthEntries_cons, fdepthDicts_cons, fdepthEntries_nil,
      fdepthDicts_nil]
    rfl
  | succ n ih =>
    show fdepthDicts [expAux (n + 1)] = n + 2
    rw [show expAux (n + 1) = FDict.mk [FEntryKV.mk ("n" ++ toString (99 - n)) "typ"
      (some ("n" ++ toString (99 - n))) [expAux n]] from rfl]
    rw [fdepthDicts_cons, fdepthEntries_cons, fdepthDicts_nil, fdepthEntries_nil]
    have ih' : fdepthDicts [expAux n] = n + 1 := ih
    rw [ih']
    omega

end FormulaWalker

open FormulaWalker in
set_option maxRecDepth 400000 in
/-- C8: the formula-object walker with the default maximum depth of 100
terminates on every input (it is a total function of its fuel, which its
depth guard bounds); whenever the depth exceeds 100 it returns the
hierarchy unchanged with no error; and on the linear chain of 150 objects
it produces exactly the truncated nested hierarchy whose deepest named
entry is the object at depth 100, of nesting depth 101. -/
theorem formula_depth_bound :
    (∀ (rels : List FRel) (obj : FObj) (h : FDict) (visited : List FObj) (depth : Nat),
      depth > 100 → processFormulaObject rels 100 obj h visited depth = h) ∧
    processFormulaObject chainFRels 100 (fob 0) (FDict.mk []) [] 0 = expAux 100 ∧
    FDict.depth (processFormulaObject chainFRels 100 (fob 0) (FDict.mk []) [] 0) = 101 := by
  have hchain : processFormulaObject chainFRels 100 (fob 0) (FDict.mk []) [] 0 = expAux 100 := by
    rfl
  refine ⟨?_, hchain, ?_⟩
  · intro rels obj h visited depth hd
    unfold processFormulaObject
    exact pfoAux_depth_exceeded rels 100 _ obj h visited depth hd
  · rw [hchain]
    exact expAux_depth 100

open FormulaWalker in
/-- Witness for C8's early-return guard at a concrete call: at depth 101
the walker returns the input hierarchy unchanged. -/
theorem formula_depth_bound_witness :
    (101 > 100) ∧ processFormulaObject [] 100 (fob 0) (FDict.mk []) [] 101 = FDict.mk [] :=
  ⟨by omega, formula_depth_bound.1 [] (fob 0) (FDict.mk []) [] 101 (by omega)⟩
